import Mathlib

/-!
Shallow embedding of the BugFixer backend (`src/app.py`).

Python strings are modelled as `List Char` (sequences of Unicode code
points); Python dicts as insertion-ordered association lists whose update
keeps the position of an existing key and appends a new one.
-/

namespace BugFixer

abbrev Chars := List Char
abbrev Dict := List (Chars × Chars)

/-- The literal separator `"START_FILE: "` used by `app.py` line 82. -/
def STARTm : Chars := "START_FILE: ".data

/-- The literal marker `"END_FILE"` used by `app.py` lines 94-95. -/
def ENDm : Chars := "END_FILE".data

/-- Python `str.isspace`-style test on the ASCII whitespace characters that
`str.strip()` removes. -/
def pyIsSpace (c : Char) : Bool :=
  c == ' ' || c == '\t' || c == '\n' || c == '\r' || c == '\x0b' || c == '\x0c'

/-- Remove trailing whitespace, as the tail half of Python `str.strip()`. -/
def pyDropTrailing (l : Chars) : Chars :=
  (l.reverse.dropWhile pyIsSpace).reverse

/-- Python `str.strip()`: remove leading and trailing whitespace. -/
def pyStrip (l : Chars) : Chars :=
  (pyDropTrailing l).dropWhile pyIsSpace

/-- Python dict assignment `d[k] = v`: update in place if the key exists
(keeping its position), otherwise append at the end. -/
def dinsert (k v : Chars) : Dict → Dict
  | [] => [(k, v)]
  | (k', v') :: rest => if k' = k then (k, v) :: rest else (k', v') :: dinsert k v rest

/-- Python `d.get(k)` returning `none` when absent. -/
def dget (d : Dict) (k : Chars) : Option Chars :=
  match d with
  | [] => none
  | (k', v) :: rest => if k' = k then some v else dget rest k

/-- The key list of a dict, in insertion order (Python `d.keys()`). -/
def dkeys (d : Dict) : List Chars := d.map Prod.fst

/-- Python `k in d` membership test on dict keys. -/
def dmem (k : Chars) (d : Dict) : Bool := (dget d k).isSome

/-- Scan for Python `s.split(sep)`, cutting at each leftmost
non-overlapping occurrence of `sep`; `acc` holds the characters of the
current fragment already scanned.  The `fuel` argument only makes the
recursion structural: one unit is spent per scanned position, so any fuel
of at least `s.length` gives the same result (`splitOnAux_fuel`). -/
def splitOnAux (sep : Chars) : Nat → Chars → Chars → List Chars
  | _, [], acc => [acc]
  | 0, c :: rest, acc => [acc ++ c :: rest]
  | fuel + 1, c :: rest, acc =>
    if sep.isPrefixOf (c :: rest) ∧ sep ≠ [] then
      acc :: splitOnAux sep fuel (rest.drop (sep.length - 1)) []
    else
      splitOnAux sep fuel rest (acc ++ [c])

/-- Python `s.split(sep)` for a non-empty separator `sep`. -/
def splitOnList (sep s acc : Chars) : List Chars :=
  splitOnAux sep s.length s acc

/-- Python `block.split("\n", 1)`: `none` when the block has no line break
(the length-1 result), otherwise the header line and the remainder. -/
def splitFirstNl : Chars → Option (Chars × Chars)
  | [] => none
  | c :: rest =>
    if c = '\n' then some ([], rest)
    else
      match splitFirstNl rest with
      | none => none
      | some (h, t) => some (c :: h, t)

/-- Python `sub in s` substring test: some suffix of `s` starts with `sub`. -/
def containsSub (sub : Chars) : Chars → Bool
  | [] => sub.isPrefixOf []
  | c :: rest => sub.isPrefixOf (c :: rest) || containsSub sub rest

/-- Python `s.rsplit(sep, 1)[0]` for non-empty `sep`: the text strictly
before the last occurrence of `sep`, or all of `s` when `sep` is absent. -/
def beforeLast (sep : Chars) : Chars → Chars
  | [] => []
  | c :: rest =>
    if containsSub sep rest then c :: beforeLast sep rest
    else if sep.isPrefixOf (c :: rest) then []
    else c :: beforeLast sep rest

/-- One iteration of the parsing loop of `app.py` lines 84-98 over one split
fragment, threading the `fixed_files` dict. -/
def processBlock (acc : Dict) (block : Chars) : Dict :=
  if pyStrip block = [] then acc
  else
    match splitFirstNl block with
    | none => acc
    | some (hd, rest) =>
      if containsSub ENDm rest then
        dinsert (pyStrip hd) (pyStrip (beforeLast ENDm rest)) acc
      else acc

/-- The response parser of `app.py` lines 81-98: split the reply on
`"START_FILE: "` and fold the block loop over all fragments. -/
def parseReply (reply : Chars) : Dict :=
  (splitOnList STARTm reply []).foldl processBlock []

/-- The merge loop of `app.py` lines 138-142: every original file in upload
order, with the fixed content when present, the original otherwise. -/
def mergeFiles (original fixed : Dict) : Dict :=
  original.map fun pc => (pc.1, (dget fixed pc.1).getD pc.2)

/-- The header line of a split fragment: the text before its first line
break (`parts[0]` of `block.split("\n", 1)`), or the whole fragment when it
has no line break. -/
def headerOf (b : Chars) : Chars :=
  match splitFirstNl b with
  | some pr => pr.1
  | none => b

/-- The remainder of a split fragment: the text after its first line break
(`parts[1]` of `block.split("\n", 1)`), or empty when it has no line break
(in which case `app.py` line 89 skips the fragment). -/
def remainderOf (b : Chars) : Chars :=
  match splitFirstNl b with
  | some pr => pr.2
  | none => []

/-- The outcome of a POST to `/api/fix` once the upload is decoded: either
the zip archive entries in order (`app.py` lines 135-151) or a JSON error
body with its HTTP status (`app.py` lines 131-132). -/
inductive HandlerResult where
  | archive : Dict → HandlerResult
  | errorJson : Nat → Dict → HandlerResult
deriving DecidableEq

/-- `call_gemini_to_fix_code` of `app.py` lines 31-105, with the external
model call abstracted as its outcome: the reply text, or the raised
exception's message.  An empty upload returns `{}` before any model call
(line 35); a raised call is caught and turned into the `{"error": ...}`
dict of line 105; otherwise the reply is parsed (lines 81-98). -/
def call_gemini_to_fix_code (files_data : Dict) (modelResult : Except Chars Chars) : Dict :=
  if files_data = [] then []
  else
    match modelResult with
    | Except.error e => [("error".data, "Error calling Gemini: ".data ++ e)]
    | Except.ok txt => parseReply txt

/-- The POST branch of `fix_code` (`app.py` lines 114-151) after the upload
has been decoded into `original_files`: call the model-and-parse step, serve
the whole returned dict as a 500 JSON body when it has an `"error"` key,
otherwise archive the merge of the originals with the fixes. -/
def fix_code (original_files : Dict) (modelResult : Except Chars Chars) : HandlerResult :=
  let fixed := call_gemini_to_fix_code original_files modelResult
  if dmem "error".data fixed then HandlerResult.errorJson 500 fixed
  else HandlerResult.archive (mergeFiles original_files fixed)

/-- One protocol block `START_FILE: <path>\n<content>\nEND_FILE`, the exact
shape of §6 of the spec, used to state the parser round-trip claim. -/
def fragOf (pc : Chars × Chars) : Chars :=
  pc.1 ++ '\n' :: (pc.2 ++ '\n' :: ENDm)

/-- The concatenation of the protocol blocks of a list of files, the
round-trip input of the parser round-trip claim. -/
def buildBlocks (files : List (Chars × Chars)) : Chars :=
  (files.map fun pc => STARTm ++ fragOf pc).flatten

/-! ### Dictionary and merge lemmas -/

theorem dkeys_mergeFiles (F R : Dict) : dkeys (mergeFiles F R) = dkeys F := by
  simp [dkeys, mergeFiles]

theorem length_mergeFiles (F R : Dict) : (mergeFiles F R).length = F.length := by
  simp [mergeFiles]

theorem dget_isSome_iff (d : Dict) (p : Chars) :
    (dget d p).isSome = true ↔ p ∈ dkeys d := by
  induction d with
  | nil => simp [dget, dkeys]
  | cons kv rest ih =>
    obtain ⟨k, v⟩ := kv
    by_cases h : k = p
    · subst h; simp [dget, dkeys]
    · simp [dget, dkeys, h, ih, Ne.symm h]

theorem dget_mergeFiles (F R : Dict) (p : Chars) :
    dget (mergeFiles F R) p = (dget F p).map fun c => (dget R p).getD c := by
  induction F with
  | nil => simp [mergeFiles, dget]
  | cons kv rest ih =>
    by_cases h : kv.1 = p
    · simp [mergeFiles, dget, h]
    · simpa [mergeFiles, dget, h] using ih

/-- C1: for every original FileSet `F` and every ReplacementSet `R`, the
merged result has exactly the path set of `F` in `F`'s insertion order and
the same number of entries, and a path present in `R` but absent from `F`
does not appear in the result. -/
theorem merge_totality (F R : Dict) :
    dkeys (mergeFiles F R) = dkeys F ∧
    (mergeFiles F R).length = F.length ∧
    ∀ p, p ∈ dkeys R → p ∉ dkeys F → p ∉ dkeys (mergeFiles F R) := by
  refine ⟨dkeys_mergeFiles F R, length_mergeFiles F R, ?_⟩
  intro p _ hp
  rw [dkeys_mergeFiles]
  exact hp

/-- Witness for C1 at a concrete upload and replacement set. -/
theorem merge_totality_witness :
    "b".data ∉ dkeys (mergeFiles [("a".data, "1".data)] [("b".data, "2".data)]) :=
  (merge_totality [("a".data, "1".data)] [("b".data, "2".data)]).2.2
    "b".data (by decide) (by decide)

/-- C2: for every original FileSet `F`, every ReplacementSet `R` and every
path `p` of `F`, the merged result maps `p` to `R[p]` when `p` is a key of
`R`, and to `F[p]` unchanged otherwise. -/
theorem merge_fixed_or_original (F R : Dict) (p : Chars) (hp : p ∈ dkeys F) :
    dget (mergeFiles F R) p = if p ∈ dkeys R then dget R p else dget F p := by
  rw [dget_mergeFiles]
  obtain ⟨c, hc⟩ := Option.isSome_iff_exists.mp ((dget_isSome_iff F p).mpr hp)
  by_cases hr : p ∈ dkeys R
  · obtain ⟨v, hv⟩ := Option.isSome_iff_exists.mp ((dget_isSome_iff R p).mpr hr)
    simp [hc, hv, hr]
  · have hnone : dget R p = none := by
      cases h : dget R p with
      | none => rfl
      | some v => exact absurd ((dget_isSome_iff R p).mp (by simp [h])) hr
    simp [hc, hnone, hr]

/-- Witness for C2 at a concrete upload and replacement set. -/
theorem merge_fixed_or_original_witness :
    dget (mergeFiles [("a".data, "1".data)] [("a".data, "9".data)]) "a".data =
      if "a".data ∈ dkeys [("a".data, "9".data)] then dget [("a".data, "9".data)] "a".data
      else dget [("a".data, "1".data)] "a".data :=
  merge_fixed_or_original [("a".data, "1".data)] [("a".data, "9".data)] "a".data (by decide)

/-- C9: applying the merge twice with the same ReplacementSet equals
applying it once. -/
theorem merge_idempotent (F R : Dict) :
    mergeFiles (mergeFiles F R) R = mergeFiles F R := by
  induction F with
  | nil => rfl
  | cons kv rest ih =>
    have hhd : (dget R kv.1).getD ((dget R kv.1).getD kv.2) = (dget R kv.1).getD kv.2 := by
      cases h : dget R kv.1 <;> simp
    simpa [mergeFiles, hhd] using ih

/-! ### Fragment-skipping behaviour of the parsing loop -/

theorem processBlock_of_stripNil (acc : Dict) (b : Chars) (h : pyStrip b = []) :
    processBlock acc b = acc := by
  simp [processBlock, h]

theorem processBlock_of_noEnd (acc : Dict) (b : Chars)
    (h : containsSub ENDm (remainderOf b) = false) : processBlock acc b = acc := by
  unfold processBlock
  by_cases hs : pyStrip b = []
  · simp [hs]
  · rw [if_neg hs]
    cases hb : splitFirstNl b with
    | none => rfl
    | some pr =>
      rw [remainderOf, hb] at h
      simp [hb, h]

theorem processBlock_records (acc : Dict) (b hd rest : Chars)
    (hne : pyStrip b ≠ []) (hb : splitFirstNl b = some (hd, rest))
    (hc : containsSub ENDm rest = true) :
    processBlock acc b = dinsert (pyStrip hd) (pyStrip (beforeLast ENDm rest)) acc := by
  unfold processBlock
  rw [if_neg hne, hb]
  simp [hc]

/-- C4: the parser is a total function of the reply text (it is defined for
every input and never raises); a fragment whose remainder contains no
`END_FILE` contributes no entry, and removing it from the fragment list
leaves the entries produced from the other fragments unchanged. -/
theorem parser_skips_fragment_without_end (l1 l2 : List Chars) (b : Chars) (acc : Dict)
    (h : containsSub ENDm (remainderOf b) = false) :
    List.foldl processBlock acc (l1 ++ b :: l2) = List.foldl processBlock acc (l1 ++ l2) := by
  rw [List.foldl_append, List.foldl_append, List.foldl_cons,
    processBlock_of_noEnd (List.foldl processBlock acc l1) b h]

/-- Witness for C4 at a concrete malformed fragment. -/
theorem parser_skips_fragment_without_end_witness :
    List.foldl processBlock [] (["a\nx\nEND_FILE".data] ++ "c.js\nbroken".data :: []) =
      List.foldl processBlock [] (["a\nx\nEND_FILE".data] ++ []) :=
  parser_skips_fragment_without_end ["a\nx\nEND_FILE".data] [] "c.js\nbroken".data []
    (by decide)

/-- C6 counterexample: the reply `"p\nEND_FILE"` contains no `START_FILE: `
marker, so the whole reply is the first split fragment; the claim says such
a fragment contributes no entry, yet the code records the entry
`"p" ↦ ""` from it. -/
theorem first_fragment_counterexample :
    containsSub STARTm "p\nEND_FILE".data = false ∧
    parseReply "p\nEND_FILE".data = [("p".data, [])] ∧
    parseReply "p\nEND_FILE".data ≠ [] :=
  ⟨by decide, by decide, by decide⟩

/-- C6 amended: the first split fragment is processed like every other
fragment, so it contributes no entry whenever its remainder contains no
`END_FILE` — in particular whenever it is ordinary prose without a line
break or without an `END_FILE` after the first line break. -/
theorem first_fragment_dropped_of_noEnd (reply b : Chars) (rest : List Chars)
    (hsplit : splitOnList STARTm reply [] = b :: rest)
    (h : containsSub ENDm (remainderOf b) = false) :
    parseReply reply = List.foldl processBlock [] rest := by
  unfold parseReply
  rw [hsplit, List.foldl_cons, processBlock_of_noEnd [] b h]

/-- Witness for C6 (amended) at a concrete reply. -/
theorem first_fragment_dropped_of_noEnd_witness :
    parseReply "hello".data = List.foldl processBlock [] [] :=
  first_fragment_dropped_of_noEnd "hello".data "hello".data [] (by decide) (by decide)

/-- C7 counterexample: in the reply `"START_FILE: \nbody\nEND_FILE"` the
fragment after the marker has a header line that trims to empty, yet it is
not skipped: the code records the entry `"" ↦ "body"`. -/
theorem empty_header_counterexample :
    splitOnList STARTm "START_FILE: \nbody\nEND_FILE".data [] =
      [[], "\nbody\nEND_FILE".data] ∧
    pyStrip (headerOf "\nbody\nEND_FILE".data) = [] ∧
    parseReply "START_FILE: \nbody\nEND_FILE".data = [([], "body".data)] :=
  ⟨by decide, by decide, by decide⟩

/-- C7 amended: the parser skips a fragment when the whole fragment trims
to empty (whitespace-only fragments between markers are ignored); a
fragment whose header line alone trims to empty but whose body is
non-whitespace and contains `END_FILE` is not skipped and contributes an
entry keyed by the empty path. -/
theorem whitespace_fragment_skipped (l1 l2 : List Chars) (b : Chars) (acc : Dict)
    (h : pyStrip b = []) :
    List.foldl processBlock acc (l1 ++ b :: l2) = List.foldl processBlock acc (l1 ++ l2) := by
  rw [List.foldl_append, List.foldl_append, List.foldl_cons,
    processBlock_of_stripNil (List.foldl processBlock acc l1) b h]

/-- Witness for C7 (amended) at a concrete whitespace-only fragment. -/
theorem whitespace_fragment_skipped_witness :
    List.foldl processBlock [] (["a\nx\nEND_FILE".data] ++ " \n\t ".data :: []) =
      List.foldl processBlock [] (["a\nx\nEND_FILE".data] ++ []) :=
  whitespace_fragment_skipped ["a\nx\nEND_FILE".data] [] " \n\t ".data [] (by decide)

/-! ### Request handler behaviour -/

/-- C8: whenever the external model invocation raises (which can only
happen on a non-empty upload, since an empty one returns before any model
call), the request terminates with an HTTP 500 JSON body whose `error`
field describes the failure.  The result is the `errorJson` constructor,
never `archive`, so no partial or complete archive is produced; and on this
path `call_gemini_to_fix_code` returns the error dict without the parsing
step ever touching any reply text. -/
theorem upstream_error_gives_500 (F : Dict) (e : Chars) (hF : F ≠ []) :
    fix_code F (Except.error e) =
      HandlerResult.errorJson 500 [("error".data, "Error calling Gemini: ".data ++ e)] := by
  unfold fix_code call_gemini_to_fix_code
  simp [hF, dmem, dget]

/-- Witness for C8 at a concrete upload and exception message. -/
theorem upstream_error_gives_500_witness :
    fix_code [("a.js".data, "var x=1".data)] (Except.error "boom".data) =
      HandlerResult.errorJson 500
        [("error".data, "Error calling Gemini: ".data ++ "boom".data)] :=
  upstream_error_gives_500 [("a.js".data, "var x=1".data)] "boom".data (by decide)

/-- C10: the handler detects upstream failure solely by testing the parsed
dict for the key `"error"`, so a successful model reply whose only block
fixes a file literally named `error` — here `"START_FILE: error\nPLAN\n`
`END_FILE"`, parsed to `{"error": "PLAN"}` — makes the request return HTTP
500 with that replacement content as the JSON body instead of an archive,
even though the original file `a.js` could have been merged. -/
theorem error_key_collision :
    parseReply "START_FILE: error\nPLAN\nEND_FILE".data = [("error".data, "PLAN".data)] ∧
    fix_code [("a.js".data, "var x=1".data)]
        (Except.ok "START_FILE: error\nPLAN\nEND_FILE".data) =
      HandlerResult.errorJson 500 [("error".data, "PLAN".data)] :=
  ⟨by decide, by decide⟩

/-! ### String lemmas -/

theorem containsSub_iff (sub s : Chars) : containsSub sub s = true ↔ sub <:+: s := by
  induction s with
  | nil => simp [containsSub, List.isPrefixOf_iff_prefix]
  | cons c rest ih =>
    simp [containsSub, List.isPrefixOf_iff_prefix, ih, List.infix_cons_iff]

theorem pyStrip_eq_nil_iff (l : Chars) :
    pyStrip l = [] ↔ ∀ c ∈ l, pyIsSpace c = true := by
  unfold pyStrip pyDropTrailing
  rw [List.dropWhile_eq_nil_iff]
  constructor
  · intro h c hc
    rcases List.mem_append.mp
      ((List.takeWhile_append_dropWhile (p := pyIsSpace) (l := l.reverse)) ▸
        (List.mem_reverse.mpr hc)) with h1 | h1
    · exact List.mem_takeWhile_imp h1
    · exact h c (List.mem_reverse.mpr h1)
  · intro h c hc
    exact h c (List.mem_reverse.mp
      ((List.dropWhile_sublist _).subset (List.mem_reverse.mp hc)))

theorem pyStrip_ne_nil_of_mem (l : Chars) (c : Char) (hc : c ∈ l)
    (hs : pyIsSpace c = false) : pyStrip l ≠ [] := by
  intro h
  rw [(pyStrip_eq_nil_iff l).mp h c hc] at hs
  exact Bool.true_eq_false.mp hs

theorem pyStrip_concat_space (l : Chars) (c : Char) (h : pyIsSpace c = true) :
    pyStrip (l ++ [c]) = pyStrip l := by
  unfold pyStrip pyDropTrailing
  rw [List.reverse_append, List.reverse_singleton, List.singleton_append]
  simp [List.dropWhile_cons, h]

theorem splitFirstNl_append (hdr rest : Chars) (h : '\n' ∉ hdr) :
    splitFirstNl (hdr ++ '\n' :: rest) = some (hdr, rest) := by
  induction hdr with
  | nil => simp [splitFirstNl]
  | cons c hdr' ih =>
    have hc : ¬ c = '\n' := fun e => h (e ▸ List.mem_cons_self c hdr')
    rw [List.cons_append]
    simp [splitFirstNl, hc, ih fun hm => h (List.mem_cons_of_mem _ hm)]

theorem beforeLast_last_occurrence (sep u v : Chars) (hsep : sep ≠ [])
    (hafter : containsSub sep (sep.drop 1 ++ v) = false) :
    beforeLast sep (u ++ sep ++ v) = u := by
  induction u with
  | nil =>
    cases sep with
    | nil => exact absurd rfl hsep
    | cons s0 sep' =>
      rw [List.nil_append, List.cons_append, beforeLast]
      rw [if_neg, if_pos]
      · exact (List.isPrefixOf_iff_prefix).mpr
          (by rw [← List.cons_append]; exact List.prefix_append _ _)
      · rw [List.drop_one, List.tail_cons] at hafter
        simp [hafter]
  | cons c u' ih =>
    rw [List.cons_append, List.cons_append, beforeLast, if_pos, ih]
    exact (containsSub_iff _ _).mpr ⟨u', v, rfl⟩

/-- C5: a fragment with a line break whose remainder contains at least one
`END_FILE` — written `u ++ ENDm ++ v` with no occurrence of `END_FILE`
starting after `u`, so that the marked occurrence is the last one — records
under its trimmed header the remainder text strictly before that last
occurrence, trimmed of surrounding whitespace. -/
theorem fragment_records_before_last_end (acc : Dict) (hdr u v : Chars)
    (hh : '\n' ∉ hdr)
    (hlast : containsSub ENDm (ENDm.drop 1 ++ v) = false) :
    processBlock acc (hdr ++ '\n' :: (u ++ ENDm ++ v)) =
      dinsert (pyStrip hdr) (pyStrip u) acc := by
  have hmem : 'E' ∈ hdr ++ '\n' :: (u ++ ENDm ++ v) := by
    refine List.mem_append_right _ (List.mem_cons_of_mem _ ?_)
    rw [List.append_assoc]
    exact List.mem_append_right _ (List.mem_append_left _ (by decide))
  have hne := pyStrip_ne_nil_of_mem _ 'E' hmem (by decide)
  have hcontains : containsSub ENDm (u ++ ENDm ++ v) = true :=
    (containsSub_iff _ _).mpr ⟨u, v, rfl⟩
  rw [processBlock_records acc _ hdr (u ++ ENDm ++ v) hne
      (splitFirstNl_append hdr _ hh) hcontains,
    beforeLast_last_occurrence ENDm u v (by decide) hlast]

/-- Witness for C5 at a concrete fragment. -/
theorem fragment_records_before_last_end_witness :
    processBlock [] ("a.js".data ++ '\n' :: ("let x=1;".data ++ ENDm ++ [])) =
      dinsert (pyStrip "a.js".data) (pyStrip "let x=1;".data) [] :=
  fragment_records_before_last_end [] "a.js".data "let x=1;".data [] (by decide) (by decide)

/-! ### Split-scan lemmas -/

theorem splitOnAux_fuel (sep : Chars) (f1 : Nat) :
    ∀ (f2 : Nat) (s acc : Chars), s.length ≤ f1 → s.length ≤ f2 →
    splitOnAux sep f1 s acc = splitOnAux sep f2 s acc := by
  induction f1 with
  | zero =>
    intro f2 s acc h1 _
    cases s with
    | nil => cases f2 <;> rfl
    | cons c rest => simp at h1
  | succ f1' ih =>
    intro f2 s acc h1 h2
    cases s with
    | nil => cases f2 <;> rfl
    | cons c rest =>
      cases f2 with
      | zero => simp at h2
      | succ f2' =>
        rw [splitOnAux, splitOnAux]
        by_cases hc : sep.isPrefixOf (c :: rest) = true ∧ sep ≠ []
        · rw [if_pos hc, if_pos hc,
            ih f2' (rest.drop (sep.length - 1)) []
              (by simp at h1 ⊢; omega) (by simp at h2 ⊢; omega)]
        · rw [if_neg hc, if_neg hc,
            ih f2' rest (acc ++ [c]) (by simp at h1 ⊢; omega) (by simp at h2 ⊢; omega)]

theorem splitOnAux_step (sep b : Chars) (hsep : sep ≠ []) :
    ∀ (a : Chars) (fuel : Nat) (acc : Chars),
    (a ++ (sep ++ b)).length ≤ fuel →
    (∀ a2, a2 <:+ a → a2 ≠ [] → sep.isPrefixOf (a2 ++ (sep ++ b)) = false) →
    splitOnAux sep fuel (a ++ (sep ++ b)) acc = (acc ++ a) :: splitOnList sep b [] := by
  intro a
  induction a with
  | nil =>
    intro fuel acc hf _
    rw [List.nil_append] at hf ⊢
    cases sep with
    | nil => exact absurd rfl hsep
    | cons s0 sep' =>
      cases fuel with
      | zero => simp at hf
      | succ f =>
        rw [List.cons_append, splitOnAux, if_pos]
        · rw [List.append_nil,
            show (s0 :: sep').length - 1 = sep'.length by simp,
            List.drop_left, splitOnList]
          congr 1
          exact splitOnAux_fuel _ f b.length b [] (by simp at hf; omega) (le_refl _)
        · constructor
          · rw [← List.cons_append]
            exact List.isPrefixOf_iff_prefix.mpr (List.prefix_append _ _)
          · exact hsep
  | cons c a' ih =>
    intro fuel acc hf hns
    cases fuel with
    | zero => simp at hf
    | succ f =>
      rw [List.cons_append, splitOnAux, if_neg, ih f (acc ++ [c]) (by simp at hf ⊢; omega)
        (fun a2 hsuf hne => hns a2 (hsuf.trans (List.suffix_cons c a')) hne)]
      · rw [List.append_assoc, List.singleton_append]
      · intro hcontra
        have := hns (c :: a') List.suffix_rfl (List.cons_ne_nil c a')
        rw [List.cons_append] at this
        rw [this] at hcontra
        exact Bool.false_ne_true hcontra.1

theorem splitOnList_step (sep a b acc : Chars) (hsep : sep ≠ [])
    (hns : ∀ a2, a2 <:+ a → a2 ≠ [] → sep.isPrefixOf (a2 ++ (sep ++ b)) = false) :
    splitOnList sep (a ++ (sep ++ b)) acc = (acc ++ a) :: splitOnList sep b [] :=
  splitOnAux_step sep b hsep a _ acc (le_refl _) hns

theorem splitOnAux_flat (sep : Chars) :
    ∀ (a : Chars) (fuel : Nat) (acc : Chars), a.length ≤ fuel →
    (∀ a2, a2 <:+ a → a2 ≠ [] → sep.isPrefixOf a2 = false) →
    splitOnAux sep fuel a acc = [acc ++ a] := by
  intro a
  induction a with
  | nil =>
    intro fuel acc _ _
    cases fuel <;> simp [splitOnAux]
  | cons c a' ih =>
    intro fuel acc hf hns
    cases fuel with
    | zero => simp at hf
    | succ f =>
      rw [splitOnAux, if_neg, ih f (acc ++ [c]) (by simp at hf ⊢; omega)
        (fun a2 hsuf hne => hns a2 (hsuf.trans (List.suffix_cons c a')) hne)]
      · rw [List.append_assoc, List.singleton_append]
      · intro hcontra
        have := hns (c :: a') List.suffix_rfl (List.cons_ne_nil c a')
        rw [this] at hcontra
        exact Bool.false_ne_true hcontra.1

theorem splitOnList_flat (sep a acc : Chars)
    (hns : ∀ a2, a2 <:+ a → a2 ≠ [] → sep.isPrefixOf a2 = false) :
    splitOnList sep a acc = [acc ++ a] :=
  splitOnAux_flat sep a _ acc (le_refl _) hns

/-! ### No occurrence of the start marker spans a protocol block -/

theorem isPrefixOf_append_cases {sep x y : Chars} (h : sep.isPrefixOf (x ++ y) = true) :
    sep.isPrefixOf x = true ∨
      (x.isPrefixOf sep = true ∧ (sep.drop x.length).isPrefixOf y = true) := by
  induction x generalizing sep with
  | nil => right; exact ⟨by simp, by simpa using h⟩
  | cons a x' ih =>
    cases sep with
    | nil => left; simp
    | cons b sep' =>
      rw [List.cons_append, List.isPrefixOf_cons₂, Bool.and_eq_true, beq_iff_eq] at h
      obtain ⟨hba, h2⟩ := h
      subst hba
      rcases ih h2 with h3 | ⟨h4, h5⟩
      · left
        rw [List.isPrefixOf_cons₂, Bool.and_eq_true, beq_iff_eq]
        exact ⟨rfl, h3⟩
      · right
        refine ⟨?_, ?_⟩
        · rw [List.isPrefixOf_cons₂, Bool.and_eq_true, beq_iff_eq]
          exact ⟨rfl, h4⟩
        · simpa using h5

theorem suffix_append_cases {l x y : Chars} (h : l <:+ x ++ y) :
    l <:+ y ∨ ∃ x', x' <:+ x ∧ x' ≠ [] ∧ l = x' ++ y := by
  obtain ⟨t, ht⟩ := h
  rcases List.append_eq_append_iff.mp ht with ⟨a, ha1, ha2⟩ | ⟨c', _, hc2⟩
  · cases a with
    | nil =>
      left
      rw [ha2, List.nil_append]
    | cons d a' =>
      right
      exact ⟨d :: a', ⟨t, ha1.symm⟩, List.cons_ne_nil d a', ha2⟩
  · left
    exact ⟨c', hc2.symm⟩

theorem isPrefixOf_cons_head {s0 d : Char} {ss w : Chars}
    (h : (s0 :: ss).isPrefixOf (d :: w) = true) : s0 = d ∧ ss.isPrefixOf w = true := by
  rw [List.isPrefixOf_cons₂, Bool.and_eq_true, beq_iff_eq] at h
  exact h

theorem STARTm_eq : STARTm = 'S' :: "TART_FILE: ".data := rfl

theorem no_start_at_suffix {x base w : Chars}
    (hxs : x <:+ base)
    (hbase : containsSub STARTm base = false)
    (h : STARTm.isPrefixOf (x ++ '\n' :: w) = true) : False := by
  rcases isPrefixOf_append_cases h with h1 | ⟨h2, h3⟩
  · obtain ⟨t, ht⟩ := List.isPrefixOf_iff_prefix.mp h1
    obtain ⟨s, hs⟩ := hxs
    have hinf : containsSub STARTm base = true :=
      (containsSub_iff _ _).mpr ⟨s, t, by rw [← hs, ← ht, List.append_assoc]⟩
    rw [hbase] at hinf
    exact Bool.false_ne_true hinf
  · cases hd : STARTm.drop x.length with
    | nil =>
      have hlen : STARTm.length ≤ x.length := by
        have hl := congrArg List.length hd
        simp [List.length_drop] at hl
        omega
      have hx : x = STARTm := (List.isPrefixOf_iff_prefix.mp h2).eq_of_length_le hlen
      obtain ⟨s, hs⟩ := hxs
      have hinf : containsSub STARTm base = true :=
        (containsSub_iff _ _).mpr ⟨s, [], by rw [List.append_nil, ← hs, hx]⟩
      rw [hbase] at hinf
      exact Bool.false_ne_true hinf
    | cons d ds =>
      rw [hd] at h3
      obtain ⟨hdeq, -⟩ := isPrefixOf_cons_head h3
      have hdmem : d ∈ STARTm.drop x.length := by
        rw [hd]
        exact List.mem_cons_self d ds
      have : d ∈ STARTm := (List.drop_suffix _ _).sublist.subset hdmem
      rw [hdeq] at this
      exact absurd this (by decide)

theorem fragOf_no_start (p c : Chars)
    (hp : containsSub STARTm p = false) (hc : containsSub STARTm c = false) :
    ∀ a2 z, a2 <:+ fragOf (p, c) → a2 ≠ [] → STARTm.isPrefixOf (a2 ++ z) = false := by
  intro a2 z hsuf hne
  rcases Bool.eq_false_or_eq_true (STARTm.isPrefixOf (a2 ++ z)) with hT | hF
  swap
  · exact hF
  exfalso
  unfold fragOf at hsuf
  rcases suffix_append_cases hsuf with h1 | ⟨p', hp', -, rfl⟩
  · rcases List.suffix_cons_iff.mp h1 with rfl | h2
    · rw [List.cons_append, STARTm_eq] at hT
      obtain ⟨hS, -⟩ := isPrefixOf_cons_head hT
      exact absurd hS (by decide)
    · rcases suffix_append_cases h2 with h3 | ⟨c', hc', -, rfl⟩
      · rcases List.suffix_cons_iff.mp h3 with rfl | h4
        · rw [List.cons_append, STARTm_eq] at hT
          obtain ⟨hS, -⟩ := isPrefixOf_cons_head hT
          exact absurd hS (by decide)
        · cases a2 with
          | nil => exact hne rfl
          | cons d w =>
            have hdmem : d ∈ ENDm := h4.sublist.subset (List.mem_cons_self d w)
            rw [List.cons_append, STARTm_eq] at hT
            obtain ⟨hS, -⟩ := isPrefixOf_cons_head hT
            rw [← hS] at hdmem
            exact absurd hdmem (by decide)
      · rw [List.append_assoc, List.cons_append] at hT
        exact no_start_at_suffix hc' hc hT
  · rw [List.append_assoc, List.cons_append] at hT
    exact no_start_at_suffix hp' hp hT

/-! ### Parser round trip -/

theorem buildBlocks_cons (pc : Chars × Chars) (fs : List (Chars × Chars)) :
    buildBlocks (pc :: fs) = (STARTm ++ fragOf pc) ++ buildBlocks fs := by
  simp [buildBlocks]

theorem split_fragChain :
    ∀ (files : List (Chars × Chars)) (p c : Chars),
    containsSub STARTm p = false → containsSub STARTm c = false →
    (∀ pc ∈ files, containsSub STARTm pc.1 = false ∧ containsSub STARTm pc.2 = false) →
    splitOnList STARTm (fragOf (p, c) ++ buildBlocks files) [] =
      fragOf (p, c) :: files.map fragOf := by
  intro files
  induction files with
  | nil =>
    intro p c hp hc _
    rw [show buildBlocks [] = [] from rfl, List.append_nil,
      splitOnList_flat STARTm (fragOf (p, c)) []
        (fun a2 hs hn => by
          rw [← List.append_nil a2]
          exact fragOf_no_start p c hp hc a2 [] hs hn),
      List.nil_append, List.map_nil]
  | cons pc' fs ih =>
    intro p c hp hc h
    rw [buildBlocks_cons, List.append_assoc,
      splitOnList_step STARTm (fragOf (p, c)) (fragOf pc' ++ buildBlocks fs) []
        (by decide)
        (fun a2 hs hn => fragOf_no_start p c hp hc a2 _ hs hn),
      List.nil_append]
    have hpc' := h pc' (List.mem_cons_self pc' fs)
    rw [show fragOf pc' = fragOf (pc'.1, pc'.2) from rfl,
      ih pc'.1 pc'.2 hpc'.1 hpc'.2 (fun q hq => h q (List.mem_cons_of_mem pc' hq)),
      List.map_cons]

theorem split_buildBlocks (files : List (Chars × Chars))
    (h : ∀ pc ∈ files, containsSub STARTm pc.1 = false ∧ containsSub STARTm pc.2 = false) :
    splitOnList STARTm (buildBlocks files) [] = [] :: files.map fragOf := by
  cases files with
  | nil => rfl
  | cons pc fs =>
    rw [buildBlocks_cons, List.append_assoc, ← List.nil_append
      (STARTm ++ (fragOf pc ++ buildBlocks fs)),
      splitOnList_step STARTm [] (fragOf pc ++ buildBlocks fs) [] (by decide)
        (fun a2 hs hn => absurd (List.suffix_nil.mp hs) hn),
      List.append_nil]
    have hpc := h pc (List.mem_cons_self pc fs)
    rw [show fragOf pc = fragOf (pc.1, pc.2) from rfl,
      split_fragChain fs pc.1 pc.2 hpc.1 hpc.2
        (fun q hq => h q (List.mem_cons_of_mem pc hq)),
      List.map_cons]

theorem dinsert_append (k v : Chars) (d : Dict) (h : k ∉ dkeys d) :
    dinsert k v d = d ++ [(k, v)] := by
  induction d with
  | nil => rfl
  | cons kv rest ih =>
    obtain ⟨k', v'⟩ := kv
    have hk : k' ≠ k := by
      intro e
      exact h (by simp [dkeys, e])
    rw [dinsert, if_neg hk, List.cons_append,
      ih (fun hm => h (by simp [dkeys] at hm ⊢; exact Or.inr hm))]

theorem processBlock_frag (acc : Dict) (p c : Chars)
    (hnl : '\n' ∉ p) (hstrip : pyStrip p = p) :
    processBlock acc (fragOf (p, c)) = dinsert p (pyStrip c) acc := by
  have hmem : 'E' ∈ fragOf (p, c) := by
    unfold fragOf
    refine List.mem_append_right _ (List.mem_cons_of_mem _
      (List.mem_append_right _ (List.mem_cons_of_mem _ ?_)))
    decide
  have hne := pyStrip_ne_nil_of_mem _ 'E' hmem (by decide)
  have hcont : containsSub ENDm (c ++ '\n' :: ENDm) = true :=
    (containsSub_iff _ _).mpr ⟨c ++ ['\n'], [], by simp⟩
  rw [fragOf, processBlock_records acc _ p (c ++ '\n' :: ENDm)
    (by rw [fragOf] at hne; exact hne) (splitFirstNl_append p _ hnl) hcont]
  have hshape : c ++ '\n' :: ENDm = (c ++ ['\n']) ++ ENDm ++ [] := by simp
  rw [hshape, beforeLast_last_occurrence ENDm (c ++ ['\n']) [] (by decide) (by decide),
    pyStrip_concat_space c '\n' (by decide), hstrip]

theorem foldl_processBlock_frags :
    ∀ (files : List (Chars × Chars)) (acc : Dict),
    (∀ pc ∈ files, '\n' ∉ pc.1 ∧ pyStrip pc.1 = pc.1) →
    (∀ pc ∈ files, pc.1 ∉ dkeys acc) →
    (files.map Prod.fst).Nodup →
    List.foldl processBlock acc (files.map fragOf) =
      acc ++ files.map fun pc => (pc.1, pyStrip pc.2) := by
  intro files
  induction files with
  | nil => intro acc _ _ _; simp
  | cons pc fs ih =>
    intro acc hw hdisj hnd
    obtain ⟨p, c⟩ := pc
    have hw0 := hw (p, c) (List.mem_cons_self _ fs)
    rw [List.map_cons, List.foldl_cons, processBlock_frag acc p c hw0.1 hw0.2,
      dinsert_append p (pyStrip c) acc (hdisj (p, c) (List.mem_cons_self _ fs)),
      ih (acc ++ [(p, pyStrip c)])
        (fun q hq => hw q (List.mem_cons_of_mem _ hq))
        (fun q hq => by
          have h1 : q.1 ∉ dkeys acc := hdisj q (List.mem_cons_of_mem _ hq)
          have h2 : q.1 ≠ p := by
            intro e
            rw [List.map_cons, List.nodup_cons] at hnd
            have h3 : q.1 ∈ fs.map Prod.fst := List.mem_map_of_mem Prod.fst hq
            rw [e] at h3
            exact hnd.1 h3
          intro hmem
          rw [dkeys, List.map_append] at hmem
          rcases List.mem_append.mp hmem with hm1 | hm2
          · exact h1 hm1
          · simp at hm2
            exact h2 hm2)
        (by rw [List.map_cons, List.nodup_cons] at hnd; exact hnd.2),
      List.append_assoc, List.singleton_append, List.map_cons]

/-- C3 counterexample: a single file whose path contains a line break
satisfies the claim's stated hypotheses (its path is non-empty, its content
contains neither marker), yet parsing the concatenated block does not map
the original path to the trimmed content: the recovered entry is keyed by
the first header line only. -/
theorem parser_round_trip_counterexample :
    containsSub STARTm "c".data = false ∧ containsSub ENDm "c".data = false ∧
    "a\nb".data ≠ [] ∧
    dget (parseReply (buildBlocks [("a\nb".data, "c".data)])) "a\nb".data = none ∧
    parseReply (buildBlocks [("a\nb".data, "c".data)]) = [("a".data, "b\nc".data)] :=
  ⟨by decide, by decide, by decide, by decide, by decide⟩

/-- C3 amended: for files with distinct non-empty paths that contain no
line break, no `START_FILE: ` marker and no surrounding whitespace, and
contents containing neither marker, parsing the concatenation of the
protocol blocks yields exactly one entry per file, mapping each original
path to its original content trimmed of surrounding whitespace. -/
theorem parser_round_trip (files : List (Chars × Chars))
    (hpath : ∀ pc ∈ files, pc.1 ≠ [] ∧ pyStrip pc.1 = pc.1 ∧ '\n' ∉ pc.1 ∧
      containsSub STARTm pc.1 = false)
    (hcont : ∀ pc ∈ files,
      containsSub STARTm pc.2 = false ∧ containsSub ENDm pc.2 = false)
    (hnodup : (files.map Prod.fst).Nodup) :
    parseReply (buildBlocks files) = (files.map fun pc => (pc.1, pyStrip pc.2)) ∧
    (parseReply (buildBlocks files)).length = files.length := by
  have hmain : parseReply (buildBlocks files) =
      files.map fun pc => (pc.1, pyStrip pc.2) := by
    unfold parseReply
    rw [split_buildBlocks files (fun pc hm => ⟨(hpath pc hm).2.2.2, (hcont pc hm).1⟩),
      List.foldl_cons, processBlock_of_stripNil [] [] rfl,
      foldl_processBlock_frags files []
        (fun pc hm => ⟨(hpath pc hm).2.2.1, (hpath pc hm).2.1⟩)
        (fun pc _ => by simp [dkeys]) hnodup,
      List.nil_append]
  exact ⟨hmain, by rw [hmain]; simp⟩

/-- Witness for C3 (amended) at a concrete two-file upload. -/
theorem parser_round_trip_witness :
    parseReply (buildBlocks [("a.js".data, " let x=1; ".data), ("b.js".data, "ok".data)]) =
      (List.map (fun pc => (pc.1, pyStrip pc.2))
        [("a.js".data, " let x=1; ".data), ("b.js".data, "ok".data)]) ∧
    (parseReply (buildBlocks
        [("a.js".data, " let x=1; ".data), ("b.js".data, "ok".data)])).length =
      (([("a.js".data, " let x=1; ".data), ("b.js".data, "ok".data)] :
        List (Chars × Chars))).length :=
  parser_round_trip [("a.js".data, " let x=1; ".data), ("b.js".data, "ok".data)]
    (by decide) (by decide) (by decide)

end BugFixer
